import Mathlib

/-!
Verification of the uber-go/multierr error-combination library against its
natural-language specification.

The development contains:
* a value-level shallow embedding of the current implementation
  (`src/error.go`): `inspect`, `fromSlice`, `Combine`, `Append`, and the two
  renderers `writeSingleline` (via `errorMsg`) and `writeMultiline`;
* a value-level embedding of the historical `errorGroup`-based variant
  (`src/unnamed/part_000`): `V1.filterNil`, `V1.flattenTo`, `V1.flatten`;
* a heap-level embedding of Go slice semantics (backing arrays, spare
  capacity, in-place `append`) used to settle the aliasing/mutation claims;
* spec-side definitions written from the specification's own words, used as
  the right-hand side of the refinement theorems.

Go `error` values are modelled as `Option Err`: `none` is the nil error.
Plain errors are identified by their message (`Err.base`); the package's own
`multiError` type is `Err.multi`.  Messages are rendered as `List Char`
(Go writes bytes; all tested messages are ASCII).
-/

namespace Multierr

/-- A Go error value reachable through this package: either a plain error
(identified by its message) or the package's `multiError` (`type multiError
[]error` in src/error.go).  `multiError`s constructed by the package never
contain nil entries, so the constituent list is `List Err`. -/
inductive Err where
  | base : String → Err
  | multi : List Err → Err

/-- Type test `err.(multiError)` succeeding. -/
def isMulti : Err → Bool
  | .base _ => false
  | .multi _ => true

/-- Negation of `isMulti`: the error is a plain (non-composite) error. -/
def isBase : Err → Bool
  | .base _ => true
  | .multi _ => false

/-- Result of `inspect` (src/error.go lines 137-150). -/
structure InspectResult where
  count : Nat
  capacity : Nat
  firstErrorIdx : Nat
  containsMultiError : Bool
deriving DecidableEq

/-- Loop body of `inspect` (src/error.go lines 154-175): `i` is the current
index, `first` the flag tracking whether a non-nil error has been seen. -/
def inspectAux : List (Option Err) → Nat → Bool → InspectResult → InspectResult
  | [], _, _, res => res
  | err :: rest, i, first, res =>
      match err with
      | none => inspectAux rest (i + 1) first res
      | some e =>
          let res1 := { res with count := res.count + 1 }
          let fr := if first then (false, { res1 with firstErrorIdx := i }) else (first, res1)
          let res2 :=
            match e with
            | .multi l =>
                { fr.2 with capacity := fr.2.capacity + l.length, containsMultiError := true }
            | .base _ => { fr.2 with capacity := fr.2.capacity + 1 }
          inspectAux rest (i + 1) fr.1 res2

/-- `inspect` (src/error.go lines 152-175). -/
def inspect (errors : List (Option Err)) : InspectResult :=
  inspectAux errors 0 true ⟨0, 0, 0, false⟩

/-- The collection loop of `fromSlice` (src/error.go lines 193-204): skip
nils, splice the contents of nested `multiError`s, append plain errors. -/
def collect : List (Option Err) → List Err
  | [] => []
  | none :: rest => collect rest
  | some (.multi l) :: rest => l ++ collect rest
  | some (.base s) :: rest => .base s :: collect rest

/-- `fromSlice` (src/error.go lines 177-206).  The `count = length` fast path
returns `multiError(errors)`; since `count = length` means no entry is nil,
the cast of the Go slice to `multiError` is `errors.filterMap id`. -/
def fromSlice (errors : List (Option Err)) : Option Err :=
  let res := inspect errors
  if res.count = 0 then none
  else if res.count = 1 then errors.getD res.firstErrorIdx none
  else if res.count = errors.length && !res.containsMultiError then
    some (.multi (errors.filterMap id))
  else
    some (.multi (collect (errors.drop res.firstErrorIdx)))

/-- `Combine` (src/error.go lines 239-241). -/
def Combine (errors : List (Option Err)) : Option Err :=
  fromSlice errors

/-- `Append` (src/error.go lines 258-281), at the level of error values.
The branch structure mirrors the source: nil short-circuits, then the
`right` non-multiError / `left` multiError accumulator case, then the
two-plain-errors case, and otherwise `fromSlice` of the pair.  (The slice
aliasing behaviour of the accumulator branch is modelled separately in the
heap-level embedding below.) -/
def Append (left right : Option Err) : Option Err :=
  match left, right with
  | none, _ => right
  | _, none => left
  | some l, some r =>
      match r with
      | .base _ =>
          match l with
          | .multi ll => some (.multi (ll ++ [r]))
          | .base _ => some (.multi [l, r])
      | .multi _ => fromSlice [left, right]

/-! Spec-side definitions for the Normalizer and Composer (spec §4.1, §4.2),
written from the specification's words, to be compared with `fromSlice`. -/

mutual

/-- Full recursive flattening of one error, per spec §4.1: a plain error
stays, a Composite is replaced by its recursively flattened constituents. -/
def flattenE : Err → List Err
  | .base s => [.base s]
  | .multi l => flattenL l

/-- Full recursive flattening of a constituent list (spec §4.1). -/
def flattenL : List Err → List Err
  | [] => []
  | e :: rest => flattenE e ++ flattenL rest

end

/-- The Normalizer of spec §4.1 on an input sequence: drop nils, replace
every composite in place by its recursively flattened constituents. -/
def flattenSpecIn : List (Option Err) → List Err
  | [] => []
  | none :: rest => flattenSpecIn rest
  | some e :: rest => flattenE e ++ flattenSpecIn rest

/-- The Composer of spec §4.2: length 0 of the flattened sequence gives nil,
length 1 gives that error unchanged, length ≥ 2 gives a new Composite
wrapping the full flattened sequence. -/
def combineSpec (errors : List (Option Err)) : Option Err :=
  match flattenSpecIn errors with
  | [] => none
  | [e] => some e
  | l => some (.multi l)

/-- One-level expansion of an error: a `multiError` contributes its
constituents, a plain error contributes itself. -/
def exp1 : Err → List Err
  | .base s => [.base s]
  | .multi l => l

/-! Well-formedness predicates (spec §3 invariant). -/

/-- A value the system itself can produce: plain, or a `multiError` with at
least two constituents none of which is a `multiError`. -/
def sysWF : Err → Bool
  | .base _ => true
  | .multi l => decide (2 ≤ l.length) && l.all isBase

/-- `sysWF` lifted to nullable errors. -/
def optWF : Option Err → Bool
  | none => true
  | some e => sysWF e

/-- The invariant claimed in spec §3: a well-formed Composite is non-empty
and none of its direct constituents is itself a Composite. -/
def claimWF : Option Err → Bool
  | none => true
  | some (.base _) => true
  | some (.multi l) => !l.isEmpty && l.all (fun x => !isMulti x)

/-! Spec-side pure counterparts of the `inspect` fields. -/

/-- Number of non-nil entries. -/
def cntNN : List (Option Err) → Nat
  | [] => 0
  | none :: rest => cntNN rest
  | some _ :: rest => cntNN rest + 1

/-- Total flattened-one-level size of the non-nil entries. -/
def capNN : List (Option Err) → Nat
  | [] => 0
  | none :: rest => capNN rest
  | some (.multi l) :: rest => capNN rest + l.length
  | some (.base _) :: rest => capNN rest + 1

/-- Whether some entry is a `multiError`. -/
def hasM : List (Option Err) → Bool
  | [] => false
  | some (.multi _) :: _ => true
  | _ :: rest => hasM rest

/-- Index of the first non-nil entry, if any. -/
def fstIdx : List (Option Err) → Option Nat
  | [] => none
  | none :: rest => (fstIdx rest).map (· + 1)
  | some _ :: _ => some 0

/-! Renderers (src/error.go lines 73-135).  `bytes.Buffer` contents are
modelled as `List Char`. -/

/-- `_singlelineSeparator` ("; "). -/
def sepSL : List Char := [';', ' ']

/-- `_multilinePrefix`: the header of the multi-line form. -/
def headerML : List Char := "the following errors occurred:".toList

/-- `_multilineSeparator` ("\n -  "): newline plus the item marker. -/
def sepML : List Char := "\n -  ".toList

/-- `_multilineIndent` (four spaces). -/
def indentML : List Char := "    ".toList

mutual

/-- `Error()` (src/error.go lines 77-86): a plain error renders as its own
message; a `multiError` renders via `writeSingleline` on a fresh buffer. -/
def errorMsg : Err → List Char
  | .base s => s.toList
  | .multi l => sglAux l true []

/-- The loop of `writeSingleline` (src/error.go lines 96-106): before every
item but the first, write the separator, then write the item's message. -/
def sglAux : List Err → Bool → List Char → List Char
  | [], _, buff => buff
  | item :: rest, first, buff =>
      sglAux rest false (buff ++ (if first then [] else sepSL) ++ errorMsg item)

end

/-- One step of `writePrefixLine`'s chunking: `strings.IndexByte(s, '\n')`
followed by `s[:idx+1]`, `s[idx+1:]`.  Returns the chunk up to and including
the first newline (the whole string when it has no newline) and the rest. -/
def lineBreak : List Char → List Char × List Char
  | [] => ([], [])
  | c :: rest =>
      if c = '\n' then ([c], rest)
      else
        let p := lineBreak rest
        (c :: p.1, p.2)

/-- `writePrefixLine` (src/error.go lines 118-135): while the string is
non-empty, write the prefix (except before the first chunk), then the chunk
up to and including the next newline (or all of it if none). -/
def writePrefixLine (pfx : List Char) : List Char → Bool → List Char
  | [], _ => []
  | c :: rest, first =>
      let p := lineBreak (c :: rest)
      (if first then [] else pfx) ++ p.1 ++ writePrefixLine pfx p.2 false
termination_by s _ => s.length
decreasing_by
  have h : ∀ s : List Char, s ≠ [] → (lineBreak s).2.length < s.length := by
    intro s
    induction s with
    | nil => intro h; simp at h
    | cons c rest ih =>
        intro _
        simp only [lineBreak]
        split
        · simp
        · by_cases hr : rest = []
          · subst hr; simp [lineBreak]
          · exact Nat.lt_succ_of_lt (by simpa using ih hr)
  exact h (c :: rest) (by simp)

/-- The item loop of `writeMultiline` (src/error.go lines 108-114): for each
item write `_multilineSeparator` then the prefixed message. -/
def wmAux : List Err → List Char
  | [] => []
  | item :: rest => sepML ++ writePrefixLine indentML (errorMsg item) true ++ wmAux rest

/-- `writeMultiline` (src/error.go lines 108-114). -/
def writeMultiline (l : List Err) : List Char :=
  headerML ++ wmAux l

/-! Spec-side rendering definitions, written from the specification's words
(spec §4.3), to be compared with the renderers above. -/

/-- Messages joined in order by the separator "; " with no leading or
trailing separator (spec §4.3, compact form). -/
def specJoin : List (List Char) → List Char
  | [] => []
  | [m] => m
  | m :: rest => m ++ sepSL ++ specJoin rest

/-- Literal split on '\n' (spec §4.3: "split on `\n`"); a trailing newline
therefore yields a trailing empty segment. -/
def splitNl : List Char → List (List Char)
  | [] => [[]]
  | c :: rest =>
      if c = '\n' then [] :: splitNl rest
      else
        match splitNl rest with
        | [] => [[c]]
        | l :: ls => (c :: l) :: ls

/-- Joining segments with the original newlines as separators. -/
def joinNl : List (List Char) → List Char
  | [] => []
  | [s] => s
  | s :: rest => s ++ '\n' :: joinNl rest

/-- Concatenation of a list of char lists. -/
def catList : List (List Char) → List Char
  | [] => []
  | x :: rest => x ++ catList rest

/-- The claim's literal re-indentation: every line after the first is
prefixed by the four-space indent, the trailing empty segment included. -/
def indentTailLit (pfx : List Char) (s : List Char) : List Char :=
  match splitNl s with
  | [] => []
  | first :: rest => joinNl (first :: rest.map (fun line => pfx ++ line))

/-- Re-indentation as the code actually behaves: every line after the first
is prefixed, except that the empty segment following a trailing newline is
emitted without the indent. -/
def prefixTailAmd (pfx : List Char) : List (List Char) → List (List Char)
  | [] => []
  | [s] => [if s.isEmpty then s else pfx ++ s]
  | s :: rest => (pfx ++ s) :: prefixTailAmd pfx rest

/-- Amended re-indentation of a whole message. -/
def indentTailAmd (pfx : List Char) (s : List Char) : List Char :=
  match splitNl s with
  | [] => []
  | first :: rest => joinNl (first :: prefixTailAmd pfx rest)

/-- Detailed rendering exactly as claim C6 states it: header, then for each
constituent a newline, the marker " -  ", and the literally re-indented
message. -/
def specDetailedLit (l : List Err) : List Char :=
  headerML ++ catList (l.map (fun e => sepML ++ indentTailLit indentML (errorMsg e)))

/-- Detailed rendering with the amended re-indentation rule. -/
def specDetailedAmd (l : List Err) : List Char :=
  headerML ++ catList (l.map (fun e => sepML ++ indentTailAmd indentML (errorMsg e)))

end Multierr

namespace V1

/-!
Value-level embedding of the historical `errorGroup`-based variant
(src/unnamed/part_000).  There, any error type exposing `Causes() []error`
— the package's own `multiError` as well as third-party composite-like
errors — matches the `errorGroup` interface; `GErr.group` covers both.
A `Causes()` list is a Go `[]error` and may contain nils, hence
`List (Option GErr)`. -/

/-- An error value in the errorGroup-based variant. -/
inductive GErr where
  | plain : String → GErr
  | group : List (Option GErr) → GErr

/-- Type test `err.(errorGroup)` succeeding (nil asserts false). -/
def isGroup : Option GErr → Bool
  | some (.group _) => true
  | _ => false

/-- `filterNil` (part_000 lines 187-196), value level: the non-nil entries
in order.  (Its in-place compaction of the caller's array is modelled in
the heap-level embedding.) -/
def filterNil : List (Option GErr) → List (Option GErr)
  | [] => []
  | none :: rest => filterNil rest
  | some e :: rest => some e :: filterNil rest

/-- Loop of `findFirstErrorGroup` (part_000 lines 202-209) with running
index; returns -1 when no entry is an errorGroup. -/
def findFirstErrorGroupAux : List (Option GErr) → Nat → Int
  | [], _ => -1
  | err :: rest, i => if isGroup err then (i : Int) else findFirstErrorGroupAux rest (i + 1)

/-- `findFirstErrorGroup` (part_000 lines 202-209). -/
def findFirstErrorGroup (errors : List (Option GErr)) : Int :=
  findFirstErrorGroupAux errors 0

/-- `flattenTo` (part_000 lines 213-225): skip nils, recurse into the
Causes of any errorGroup, append everything else. -/
def flattenTo (dest : List (Option GErr)) : List (Option GErr) → List (Option GErr)
  | [] => dest
  | none :: rest => flattenTo dest rest
  | some (.group causes) :: rest => flattenTo (flattenTo dest causes) rest
  | some (.plain s) :: rest => flattenTo (dest ++ [some (.plain s)]) rest

/-- `flatten` (part_000 lines 168-184). -/
def flatten (errors : List (Option GErr)) : List (Option GErr) :=
  let errors := filterNil errors
  if errors.length = 0 then []
  else
    let idx := findFirstErrorGroup errors
    if idx < 0 then errors
    else flattenTo (errors.take idx.toNat) (errors.drop idx.toNat)

/-- The Normalizer per spec §4.1 and claim C2: every non-nil input error in
original order, with every composite-capable element replaced in place by
its own constituents, recursively unrolled until no composite remains. -/
def specFlattenL : List (Option GErr) → List GErr
  | [] => []
  | none :: rest => specFlattenL rest
  | some (.plain s) :: rest => .plain s :: specFlattenL rest
  | some (.group causes) :: rest => specFlattenL causes ++ specFlattenL rest

end V1

namespace Heap

/-!
Heap-level embedding of Go slice semantics, used for the claims about
mutation and aliasing (C4, C9).  A heap is a list of backing arrays of
error cells; a slice is an array id, an offset and a length; the capacity
is the backing array's length minus the offset.  `goAppend` is Go's
`append`: it writes in place when spare capacity exists and otherwise
allocates a grown copy (doubling, as Go does for small slices). -/

/-- A Go slice header. -/
structure HSlice where
  arr : Nat
  off : Nat
  len : Nat
deriving DecidableEq

/-- A heap of backing arrays with cells of type `Option α` (nil included). -/
structure HState (α : Type) where
  arrays : List (List (Option α))

/-- The backing array of id `a` (empty if out of range). -/
def readArr {α : Type} (st : HState α) (a : Nat) : List (Option α) :=
  st.arrays.getD a []

/-- Element `i` of slice `s`. -/
def readCell {α : Type} (st : HState α) (s : HSlice) (i : Nat) : Option α :=
  (readArr st s.arr).getD (s.off + i) none

/-- All elements of slice `s`, in order. -/
def readSlice {α : Type} (st : HState α) (s : HSlice) : List (Option α) :=
  (List.range s.len).map (fun i => readCell st s i)

/-- Overwrite cell `j` of array `a`. -/
def writeCell {α : Type} (st : HState α) (a j : Nat) (v : Option α) : HState α :=
  ⟨st.arrays.set a ((readArr st a).set j v)⟩

/-- Allocate a fresh backing array; returns its id. -/
def allocArr {α : Type} (st : HState α) (cells : List (Option α)) : HState α × Nat :=
  (⟨st.arrays ++ [cells]⟩, st.arrays.length)

/-- Go's `append(s, v)`: write into the backing array when the slice has
spare capacity; otherwise allocate a grown array (capacity doubled, at
least len+1, as for small Go slices), copy, and append there. -/
def goAppend {α : Type} (st : HState α) (s : HSlice) (v : Option α) : HState α × HSlice :=
  if s.off + s.len < (readArr st s.arr).length then
    (writeCell st s.arr (s.off + s.len) v, ⟨s.arr, s.off, s.len + 1⟩)
  else
    let oldCap := (readArr st s.arr).length - s.off
    let newCap := max (2 * oldCap) (s.len + 1)
    let cells := readSlice st s ++ [v] ++ List.replicate (newCap - (s.len + 1)) none
    let p := allocArr st cells
    (p.1, ⟨p.2, 0, s.len + 1⟩)

/-- `make([]error, 0, cap)`: a fresh zeroed backing array and an empty
slice over it. -/
def makeSlice {α : Type} (st : HState α) (cap : Nat) : HState α × HSlice :=
  let p := allocArr st (List.replicate cap none)
  (p.1, ⟨p.2, 0, 0⟩)

/-- An error value of the current variant at heap level: plain, or a
`multiError` as a slice header over heap storage. -/
inductive GErrH where
  | plain : String → GErrH
  | multiRef : HSlice → GErrH
deriving DecidableEq

/-- `inspect` (src/error.go lines 154-175) reading cells from the heap. -/
def inspectGo (st : HState GErrH) (s : HSlice) : Multierr.InspectResult :=
  ((List.range s.len).foldl
    (fun (acc : Multierr.InspectResult × Bool) i =>
      match readCell st s i with
      | none => acc
      | some e =>
          let res1 := { acc.1 with count := acc.1.count + 1 }
          let fr := if acc.2 then (false, { res1 with firstErrorIdx := i }) else (acc.2, res1)
          match e with
          | .multiRef s' =>
              ({ fr.2 with capacity := fr.2.capacity + s'.len, containsMultiError := true }, fr.1)
          | .plain _ => ({ fr.2 with capacity := fr.2.capacity + 1 }, fr.1))
    (⟨0, 0, 0, false⟩, true)).1

/-- `fromSlice` (src/error.go lines 177-206) at heap level.  The fast path
returns a `multiError` aliasing the input slice; the general path allocates
`make(multiError, 0, capacity)` and appends into it. -/
def fromSliceGo (st : HState GErrH) (s : HSlice) : HState GErrH × Option GErrH :=
  let res := inspectGo st s
  if res.count = 0 then (st, none)
  else if res.count = 1 then (st, readCell st s res.firstErrorIdx)
  else if res.count = s.len && !res.containsMultiError then (st, some (.multiRef s))
  else
    let p := makeSlice st res.capacity
    let q := (List.range (s.len - res.firstErrorIdx)).foldl
      (fun (acc : HState GErrH × HSlice) i =>
        match readCell acc.1 s (res.firstErrorIdx + i) with
        | none => acc
        | some (.multiRef s') =>
            (List.range s'.len).foldl
              (fun (acc2 : HState GErrH × HSlice) j =>
                goAppend acc2.1 acc2.2 (readCell acc2.1 s' j))
              acc
        | some (.plain t) => goAppend acc.1 acc.2 (some (.plain t)))
      p
    (q.1, some (.multiRef q.2))

/-- `Append` (src/error.go lines 258-281) at heap level.  The accumulator
branch is the source's `return append(l, right)`; the final branch models
`errors := [2]error{left, right}; return fromSlice(errors[0:])`. -/
def appendGo (st : HState GErrH) (left right : Option GErrH) :
    HState GErrH × Option GErrH :=
  match left, right with
  | none, _ => (st, right)
  | _, none => (st, left)
  | some l, some r =>
      match r with
      | .plain _ =>
          match l with
          | .multiRef s =>
              let p := goAppend st s (some r)
              (p.1, some (.multiRef p.2))
          | .plain _ =>
              let p := allocArr st [some l, some r]
              (p.1, some (.multiRef ⟨p.2, 0, 2⟩))
      | .multiRef _ =>
          let p := allocArr st [some l, some r]
          fromSliceGo p.1 ⟨p.2, 0, 2⟩

/-- The C4 scenario: build `c = Append(Append(e1, e2), e3)` (a `multiError`
of length 3 whose backing array has capacity 4), then `Append(c, e4)` and
`Append(c, e5)` against the same `c`. -/
def c4Step1 : HState GErrH × Option GErrH :=
  appendGo ⟨[]⟩ (some (.plain "e1")) (some (.plain "e2"))

/-- Second step: `c = Append(step1, e3)`. -/
def c4Step2 : HState GErrH × Option GErrH :=
  appendGo c4Step1.1 c4Step1.2 (some (.plain "e3"))

/-- Third step: `err1 = Append(c, e4)`. -/
def c4Step3 : HState GErrH × Option GErrH :=
  appendGo c4Step2.1 c4Step2.2 (some (.plain "e4"))

/-- Fourth step: `err2 = Append(c, e5)`, appending to the same `c`. -/
def c4Step4 : HState GErrH × Option GErrH :=
  appendGo c4Step3.1 c4Step2.2 (some (.plain "e5"))

/-- The constituents an error value shows in a given heap: a plain error is
itself; a `multiError` shows the cells of its slice. -/
def viewErr (st : HState GErrH) : Option GErrH → List (Option GErrH)
  | none => []
  | some (.plain t) => [some (.plain t)]
  | some (.multiRef s) => readSlice st s

end Heap

namespace V1Heap

/-!
Heap-level embedding of the errorGroup-based variant's `flatten` pipeline
(src/unnamed/part_000), capturing `filterNil`'s in-place compaction of the
caller's backing array.  Groups carry their `Causes()` lists as values;
`flattenTo` only reads them, and writes only to the freshly allocated
destination array, so keeping them as values is observationally faithful. -/

open Heap

/-- An error value of the errorGroup-based variant. -/
inductive V1HE where
  | plain : String → V1HE
  | group : List (Option V1HE) → V1HE

/-- `filterNil` (part_000 lines 187-196) at heap level: `newErrors :=
errors[:0]` shares the caller's backing array, and each `append` of a
non-nil entry writes into that array in place. -/
def filterNilGo (st : HState V1HE) (s : HSlice) : HState V1HE × HSlice :=
  (List.range s.len).foldl
    (fun (acc : HState V1HE × HSlice) i =>
      match readCell acc.1 s i with
      | none => acc
      | some e => goAppend acc.1 acc.2 (some e))
    (st, ⟨s.arr, s.off, 0⟩)

/-- Type test `err.(errorGroup)` succeeding. -/
def isGroupCell : Option V1HE → Bool
  | some (.group _) => true
  | _ => false

/-- `findFirstErrorGroup` (part_000 lines 202-209) over a snapshot of the
slice's values (it only reads). -/
def findFirstGroupAux : List (Option V1HE) → Nat → Int
  | [], _ => -1
  | c :: rest, i => if isGroupCell c then (i : Int) else findFirstGroupAux rest (i + 1)

/-- `flattenTo` (part_000 lines 213-225) at heap level: the destination is
a heap slice (freshly allocated by `flatten`), the source values are read
from `Causes()` lists. -/
def flattenToGo (st : HState V1HE) (dest : HSlice) :
    List (Option V1HE) → HState V1HE × HSlice
  | [] => (st, dest)
  | none :: rest => flattenToGo st dest rest
  | some (.group causes) :: rest =>
      let p := flattenToGo st dest causes
      flattenToGo p.1 p.2 rest
  | some (.plain t) :: rest =>
      let p := goAppend st dest (some (.plain t))
      flattenToGo p.1 p.2 rest

/-- `flatten` (part_000 lines 168-184) at heap level: filter nils in place,
return the filtered slice when no errorGroup occurs, and otherwise copy
into a fresh array of capacity `len + 8` (`_errorBuffer`). -/
def flattenGo (st : HState V1HE) (s : HSlice) : HState V1HE × HSlice :=
  let p := filterNilGo st s
  if p.2.len = 0 then (p.1, ⟨0, 0, 0⟩)
  else
    let vals := readSlice p.1 p.2
    let idx := findFirstGroupAux vals 0
    if idx < 0 then p
    else
      let k := idx.toNat
      let q := makeSlice p.1 (p.2.len + 8)
      let r := (vals.take k).foldl (fun acc v => goAppend acc.1 acc.2 v) (q.1, q.2)
      flattenToGo r.1 r.2 (vals.drop k)

/-- Result of `FromSlice` (part_000 lines 245-254): nil, a single error
returned as-is, or a `multiError` wrapping the flattened slice. -/
inductive V1Res where
  | nilErr : V1Res
  | single : Option V1HE → V1Res
  | multiWrap : HSlice → V1Res

/-- `FromSlice` (part_000 lines 245-254) at heap level. -/
def fromSliceGoV1 (st : HState V1HE) (s : HSlice) : HState V1HE × V1Res :=
  let p := flattenGo st s
  if p.2.len = 0 then (p.1, .nilErr)
  else if p.2.len = 1 then (p.1, .single (readCell p.1 p.2 0))
  else (p.1, .multiWrap p.2)

/-- The C9 failing input: the caller's slice `[foo, nil, bar]` over a
single backing array. -/
def c9St : HState V1HE := ⟨[[some (.plain "foo"), none, some (.plain "bar")]]⟩

/-- The caller's slice header for the C9 input. -/
def c9Slice : HSlice := ⟨0, 0, 3⟩

/-- Running `FromSlice` (i.e. `Combine(foo, nil, bar)`) on the C9 input. -/
def c9Run : HState V1HE × V1Res := fromSliceGoV1 c9St c9Slice

end V1Heap

namespace Spec

/-!
Spec-modelled introspection.  The `is-every` operation of spec §4.4 and §6
has no implementation among the provided sources (only its tests appear),
so it is modelled from the specification's words. -/

/-- Modelled from the spec: the host's standard error-equivalence relation
(spec §4.4, "identity or an explicit equivalence/unwrap chain").  Plain
errors are equivalent exactly when they are the same error (identity,
modelled as message identity); a Composite is not comparable to anything
(no unwrap chain is defined for the target side). -/
def errIs (e target : Multierr.Err) : Bool :=
  match e, target with
  | .base s, .base t => s == t
  | _, _ => false

/-- Modelled from the spec: `is-every(e, target)` (spec §4.4), whose
implementation is not among the provided sources.  True iff `e` is a
Composite and every direct constituent is equivalent to `target`; for a
non-composite `e`, true iff `e` itself is equivalent to `target`. -/
def isEvery (e target : Multierr.Err) : Bool :=
  match e with
  | .multi l => l.all (fun x => errIs x target)
  | .base s => errIs (.base s) target

end Spec

open Multierr Heap V1Heap Spec

/-- C4: appending to a `multiError` whose backing array has spare capacity
reuses that array (src/error.go line 270, `return append(l, right)`); the
second `Append(c, e5)` overwrites the cell that the first result shares, so
`err1 = Append(c, e4)` no longer ends in `e4`.  `c` itself is unchanged,
but the first append's result is corrupted, violating the claim. -/
theorem C4_append_mutates_shared_composite :
    viewErr c4Step4.1 c4Step2.2 =
      [some (.plain "e1"), some (.plain "e2"), some (.plain "e3")] ∧
    viewErr c4Step3.1 c4Step3.2 =
      [some (.plain "e1"), some (.plain "e2"), some (.plain "e3"), some (.plain "e4")] ∧
    viewErr c4Step4.1 c4Step3.2 =
      [some (.plain "e1"), some (.plain "e2"), some (.plain "e3"), some (.plain "e5")] ∧
    viewErr c4Step4.1 c4Step3.2 ≠
      [some (.plain "e1"), some (.plain "e2"), some (.plain "e3"), some (.plain "e4")] := by
  refine ⟨rfl, rfl, rfl, ?_⟩
  decide

/-- C9: in the errorGroup-based variant, `Combine(foo, nil, bar)` compacts
the non-nil errors to the front of the caller's backing array in place
(`filterNil`, part_000 lines 187-196): position 1 of the caller's sequence
held nil before the call and holds the "bar" error afterwards. -/
theorem C9_combine_mutates_input :
    readCell c9St c9Slice 1 = none ∧
    readCell c9Run.1 c9Slice 1 = some (.plain "bar") ∧
    c9Run.1.arrays = [[some (.plain "foo"), some (.plain "bar"), some (.plain "bar")]] ∧
    ¬ readCell c9Run.1 c9Slice 1 = readCell c9St c9Slice 1 := by
  refine ⟨rfl, rfl, rfl, fun h => ?_⟩
  rw [show readCell c9Run.1 c9Slice 1 = some (.plain "bar") from rfl,
    show readCell c9St c9Slice 1 = none from rfl] at h
  exact Option.noConfusion h

/-! Helper lemmas: characterization of `inspect` by the pure counterparts
`cntNN`, `capNN`, `fstIdx`, `hasM`. -/

theorem inspectAux_eq (l : List (Option Err)) :
    ∀ (i : Nat) (res : InspectResult),
      inspectAux l i true res =
        ⟨res.count + cntNN l, res.capacity + capNN l,
          (match fstIdx l with | some k => i + k | none => res.firstErrorIdx),
          res.containsMultiError || hasM l⟩ ∧
      inspectAux l i false res =
        ⟨res.count + cntNN l, res.capacity + capNN l, res.firstErrorIdx,
          res.containsMultiError || hasM l⟩ := by
  induction l with
  | nil => intro i res; simp [inspectAux, cntNN, capNN, hasM, fstIdx]
  | cons head rest ih =>
      intro i res
      match head with
      | none =>
          refine ⟨?_, ?_⟩
          · rw [show inspectAux (none :: rest) i true res = inspectAux rest (i + 1) true res
              from rfl, (ih (i + 1) res).1]
            simp only [cntNN, capNN, hasM, fstIdx]
            cases h : fstIdx rest <;> simp [h, InspectResult.mk.injEq] <;> omega
          · rw [show inspectAux (none :: rest) i false res = inspectAux rest (i + 1) false res
              from rfl, (ih (i + 1) res).2]
            simp [cntNN, capNN, hasM, fstIdx]
      | some (.base s) =>
          refine ⟨?_, ?_⟩
          · rw [show inspectAux (some (.base s) :: rest) i true res =
              inspectAux rest (i + 1) false
                ⟨res.count + 1, res.capacity + 1, i, res.containsMultiError⟩ from rfl,
              (ih (i + 1) _).2]
            simp [cntNN, capNN, hasM, fstIdx, InspectResult.mk.injEq]
            omega
          · rw [show inspectAux (some (.base s) :: rest) i false res =
              inspectAux rest (i + 1) false
                ⟨res.count + 1, res.capacity + 1, res.firstErrorIdx,
                  res.containsMultiError⟩ from rfl,
              (ih (i + 1) _).2]
            simp [cntNN, capNN, hasM, fstIdx, InspectResult.mk.injEq]
            omega
      | some (.multi m) =>
          refine ⟨?_, ?_⟩
          · rw [show inspectAux (some (.multi m) :: rest) i true res =
              inspectAux rest (i + 1) false
                ⟨res.count + 1, res.capacity + m.length, i, true⟩ from rfl,
              (ih (i + 1) _).2]
            simp [cntNN, capNN, hasM, fstIdx, InspectResult.mk.injEq]
            omega
          · rw [show inspectAux (some (.multi m) :: rest) i false res =
              inspectAux rest (i + 1) false
                ⟨res.count + 1, res.capacity + m.length, res.firstErrorIdx, true⟩ from rfl,
              (ih (i + 1) _).2]
            simp [cntNN, capNN, hasM, fstIdx, InspectResult.mk.injEq]
            omega

theorem inspect_eq (errors : List (Option Err)) :
    inspect errors =
      ⟨cntNN errors, capNN errors, (fstIdx errors).getD 0, hasM errors⟩ := by
  rw [show inspect errors = inspectAux errors 0 true ⟨0, 0, 0, false⟩ from rfl,
    (inspectAux_eq errors 0 ⟨0, 0, 0, false⟩).1]
  cases h : fstIdx errors <;> simp [h]

/-! Helper lemmas about the pure counterparts and the spec-side flatten. -/

theorem cntNN_eq_zero {l : List (Option Err)} :
    cntNN l = 0 ↔ ∀ x ∈ l, x = none := by
  induction l with
  | nil => simp [cntNN]
  | cons head rest ih => cases head <;> simp [cntNN, ih]

theorem flattenSpecIn_of_all_none {l : List (Option Err)} (h : ∀ x ∈ l, x = none) :
    flattenSpecIn l = [] := by
  induction l with
  | nil => rfl
  | cons head rest ih =>
      have hh := h head (by simp)
      subst hh
      exact ih (fun x hx => h x (by simp [hx]))

theorem fstIdx_none_iff {l : List (Option Err)} : fstIdx l = none ↔ cntNN l = 0 := by
  induction l with
  | nil => simp [fstIdx, cntNN]
  | cons head rest ih => cases head <;> simp [fstIdx, cntNN, ih]

theorem fstIdx_decomp {l : List (Option Err)} {k : Nat} (h : fstIdx l = some k) :
    ∃ pre e post, l = pre ++ some e :: post ∧ pre.length = k ∧ ∀ x ∈ pre, x = none := by
  induction l generalizing k with
  | nil => simp [fstIdx] at h
  | cons head rest ih =>
      match head with
      | some e =>
          simp only [fstIdx, Option.some.injEq] at h
          exact ⟨[], e, rest, by simp, by simp [← h], by simp⟩
      | none =>
          simp only [fstIdx, Option.map_eq_some'] at h
          obtain ⟨k0, hk0, hk⟩ := h
          obtain ⟨pre, e, post, hl, hlen, hpre⟩ := ih hk0
          refine ⟨none :: pre, e, post, by simp [hl], by simp [hlen, ← hk], ?_⟩
          intro x hx
          rcases List.mem_cons.mp hx with h1 | h2
          · exact h1
          · exact hpre x h2

theorem flattenSpecIn_append (l1 l2 : List (Option Err)) :
    flattenSpecIn (l1 ++ l2) = flattenSpecIn l1 ++ flattenSpecIn l2 := by
  induction l1 with
  | nil => simp [flattenSpecIn]
  | cons head rest ih => cases head <;> simp [flattenSpecIn, ih]

theorem cntNN_append (l1 l2 : List (Option Err)) :
    cntNN (l1 ++ l2) = cntNN l1 + cntNN l2 := by
  induction l1 with
  | nil => simp [cntNN]
  | cons head rest ih => cases head <;> simp [cntNN, ih] <;> omega

theorem flattenL_of_all_base {m : List Err} (h : ∀ x ∈ m, isBase x = true) :
    flattenL m = m := by
  induction m with
  | nil => rfl
  | cons e rest ih =>
      have he := h e (by simp)
      match e, he with
      | .base s, _ =>
          rw [show flattenL (Err.base s :: rest) = flattenE (.base s) ++ flattenL rest
            from rfl, ih (fun x hx => h x (by simp [hx]))]
          rfl

theorem flattenE_of_sysWF {e : Err} (h : sysWF e = true) :
    flattenE e = exp1 e := by
  match e with
  | .base s => rfl
  | .multi m =>
      simp only [sysWF, Bool.and_eq_true, List.all_eq_true, decide_eq_true_eq] at h
      rw [show flattenE (Err.multi m) = flattenL m from rfl,
        flattenL_of_all_base h.2]
      rfl

theorem collect_eq_flattenSpecIn {l : List (Option Err)}
    (h : ∀ x ∈ l, optWF x = true) : collect l = flattenSpecIn l := by
  induction l with
  | nil => rfl
  | cons head rest ih =>
      have hrest := fun x hx => h x (List.mem_cons_of_mem _ hx)
      match head with
      | none => simpa [collect, flattenSpecIn] using ih hrest
      | some (.base s) => simp [collect, flattenSpecIn, flattenE, ih hrest]
      | some (.multi m) =>
          have hm : sysWF (.multi m) = true := h (some (.multi m)) (by simp)
          simp only [collect, flattenSpecIn, ih hrest]
          rw [flattenE_of_sysWF hm]
          rfl

theorem flattenE_length_pos {e : Err} (h : sysWF e = true) :
    1 ≤ (flattenE e).length := by
  rw [flattenE_of_sysWF h]
  match e, h with
  | .base s, _ => simp [exp1]
  | .multi m, h =>
      simp only [sysWF, Bool.and_eq_true, decide_eq_true_eq] at h
      simp only [exp1]
      omega

theorem flattenSpecIn_length_ge {l : List (Option Err)}
    (h : ∀ x ∈ l, optWF x = true) : cntNN l ≤ (flattenSpecIn l).length := by
  induction l with
  | nil => simp [cntNN, flattenSpecIn]
  | cons head rest ih =>
      have hrest := fun x hx => h x (List.mem_cons_of_mem _ hx)
      match head with
      | none => simpa [cntNN, flattenSpecIn] using ih hrest
      | some e =>
          have he : sysWF e = true := h (some e) (by simp)
          have h1 := flattenE_length_pos he
          have h2 := ih hrest
          simp only [cntNN, flattenSpecIn, List.length_append]
          omega

theorem cntNN_le_length (l : List (Option Err)) : cntNN l ≤ l.length := by
  induction l with
  | nil => simp [cntNN]
  | cons head rest ih => cases head <;> simp [cntNN, ih] <;> omega

theorem no_none_of_cnt_eq_length {l : List (Option Err)}
    (h : cntNN l = l.length) : ∀ x ∈ l, x ≠ none := by
  induction l with
  | nil => simp
  | cons head rest ih =>
      match head with
      | none =>
          exfalso
          have := cntNN_le_length rest
          simp [cntNN] at h
          omega
      | some e =>
          simp only [cntNN, List.length_cons, Nat.add_right_cancel_iff] at h
          intro x hx
          rcases List.mem_cons.mp hx with h1 | h2
          · subst h1; simp
          · exact ih h x h2

theorem filterMap_id_eq_flattenSpecIn {l : List (Option Err)}
    (hn : ∀ x ∈ l, x ≠ none) (hm : hasM l = false) :
    l.filterMap id = flattenSpecIn l := by
  induction l with
  | nil => rfl
  | cons head rest ih =>
      match head with
      | none => exact absurd rfl (hn none (by simp))
      | some (.base s) =>
          have : hasM rest = false := by simpa [hasM] using hm
          simp [flattenSpecIn, flattenE,
            ih (fun x hx => hn x (List.mem_cons_of_mem _ hx)) this]
      | some (.multi m) => simp [hasM] at hm

theorem getD_decomp (pre post : List (Option Err)) (e : Err) :
    (pre ++ some e :: post).getD pre.length none = some e := by
  induction pre with
  | nil => rfl
  | cons head rest ih => simpa [List.getD] using ih

theorem drop_decomp (pre post : List (Option Err)) (e : Err) :
    (pre ++ some e :: post).drop pre.length = some e :: post := by
  induction pre with
  | nil => rfl
  | cons head rest ih => simpa using ih

theorem combineSpec_of_two_le {l : List (Option Err)}
    (h : 2 ≤ (flattenSpecIn l).length) :
    combineSpec l = some (.multi (flattenSpecIn l)) := by
  unfold combineSpec
  match hf : flattenSpecIn l with
  | [] => rw [hf] at h; simp at h
  | [e] => rw [hf] at h; simp at h
  | a :: b :: rest => rfl

/-- Main characterization of the current variant: on inputs whose
`multiError`s are values the system itself can produce, `fromSlice` agrees
with the spec's Normalizer + Composer pipeline. -/
theorem fromSlice_eq_combineSpec {errors : List (Option Err)}
    (h : ∀ x ∈ errors, optWF x = true) :
    fromSlice errors = combineSpec errors := by
  rw [show fromSlice errors =
      (if (inspect errors).count = 0 then none
       else if (inspect errors).count = 1 then
         errors.getD (inspect errors).firstErrorIdx none
       else if (inspect errors).count = errors.length &&
           !(inspect errors).containsMultiError then
         some (.multi (errors.filterMap id))
       else
         some (.multi (collect (errors.drop (inspect errors).firstErrorIdx))))
    from rfl, inspect_eq errors]
  by_cases h0 : cntNN errors = 0
  · have : flattenSpecIn errors = []
      := flattenSpecIn_of_all_none (cntNN_eq_zero.mp h0)
    simp [h0, combineSpec, this]
  · by_cases h1 : cntNN errors = 1
    · obtain ⟨k, hk⟩ : ∃ k, fstIdx errors = some k := by
        cases hf : fstIdx errors with
        | none => exact absurd (fstIdx_none_iff.mp hf) h0
        | some k => exact ⟨k, rfl⟩
      obtain ⟨pre, e, post, hl, hlen, hpre⟩ := fstIdx_decomp hk
      have hpost0 : cntNN post = 0 := by
        have := cntNN_append pre (some e :: post)
        rw [← hl, h1] at this
        have hpre0 : cntNN pre = 0 := cntNN_eq_zero.mpr hpre
        rw [hpre0] at this
        simp [cntNN] at this
        omega
      have hflat : flattenSpecIn errors = flattenE e := by
        rw [hl, flattenSpecIn_append, flattenSpecIn_of_all_none hpre,
          show flattenSpecIn (some e :: post) = flattenE e ++ flattenSpecIn post
            from rfl,
          flattenSpecIn_of_all_none (cntNN_eq_zero.mp hpost0)]
        simp
      have hwf : sysWF e = true := by
        apply h (some e)
        rw [hl]
        simp
      have hget : errors.getD k none = some e := by
        rw [hl, ← hlen]
        exact getD_decomp pre post e
      rw [if_neg h0, if_pos h1]
      simp only [hk, Option.getD_some, hget]
      match e, hwf, hflat with
      | .base s, _, hflat =>
          have : flattenSpecIn errors = [.base s] := by
            rw [hflat]; rfl
          simp [combineSpec, this]
      | .multi m, hwf, hflat =>
          have hm2 : 2 ≤ m.length := by
            simp only [sysWF, Bool.and_eq_true, decide_eq_true_eq] at hwf
            exact hwf.1
          have hfm : flattenSpecIn errors = m := by
            rw [hflat, flattenE_of_sysWF hwf]; rfl
          rw [combineSpec_of_two_le (by rw [hfm]; exact hm2), hfm]
    · have h2 : 2 ≤ cntNN errors := by omega
      have hlen2 : 2 ≤ (flattenSpecIn errors).length :=
        le_trans h2 (flattenSpecIn_length_ge h)
      rw [if_neg h0, if_neg h1, combineSpec_of_two_le hlen2]
      by_cases hfast : cntNN errors = errors.length ∧ hasM errors = false
      · rw [if_pos (by simp [hfast.1, hfast.2])]
        rw [filterMap_id_eq_flattenSpecIn (no_none_of_cnt_eq_length hfast.1) hfast.2]
      · rw [if_neg (by
          simp only [Bool.and_eq_true, decide_eq_true_eq, Bool.not_eq_true',
            not_and]
          intro hc
          rcases Decidable.not_and_iff_or_not.mp hfast with hna | hnb
          · exact absurd hc hna
          · exact fun hb => absurd (by simpa using hb) hnb)]
        obtain ⟨k, hk⟩ : ∃ k, fstIdx errors = some k := by
          cases hf : fstIdx errors with
          | none => exact absurd (fstIdx_none_iff.mp hf) h0
          | some k => exact ⟨k, rfl⟩
        obtain ⟨pre, e, post, hl, hlen, hpre⟩ := fstIdx_decomp hk
        have hdrop : errors.drop k = some e :: post := by
          rw [hl, ← hlen]
          exact drop_decomp pre post e
        have hsub : ∀ x ∈ some e :: post, optWF x = true := by
          intro x hx
          apply h
          rw [hl]
          exact List.mem_append_right _ hx
        simp only [hk, Option.getD_some, hdrop]
        rw [collect_eq_flattenSpecIn hsub, hl, flattenSpecIn_append,
          flattenSpecIn_of_all_none hpre]
        simp

/-- C1: `combine` returns nil when the flattened sequence is empty, the
single remaining error itself (unwrapped, unchanged) when it has exactly
one element, and a Composite wrapping the full flattened sequence when it
has two or more — for inputs whose `multiError`s are system-produced
(non-empty, flattened), the only ones constructible through the public
API. -/
theorem C1_combine_zero_one_many (errors : List (Option Err))
    (h : ∀ x ∈ errors, optWF x = true) :
    (flattenSpecIn errors = [] → Combine errors = none) ∧
    (∀ e, flattenSpecIn errors = [e] → Combine errors = some e) ∧
    (2 ≤ (flattenSpecIn errors).length →
      Combine errors = some (.multi (flattenSpecIn errors))) := by
  rw [show Combine errors = fromSlice errors from rfl, fromSlice_eq_combineSpec h]
  refine ⟨fun he => by simp [combineSpec, he], fun e he => by simp [combineSpec, he],
    fun h2 => combineSpec_of_two_le h2⟩

/-- Witness for C1 at a concrete input. -/
theorem C1_combine_zero_one_many_witness :
    Combine [some (Err.base "a"), none, some (Err.base "b")] =
      some (Err.multi (flattenSpecIn [some (Err.base "a"), none, some (Err.base "b")])) :=
  (C1_combine_zero_one_many [some (Err.base "a"), none, some (Err.base "b")]
    (by decide)).2.2 (by decide)

/-! Helper lemmas for the invariant claim C7. -/

theorem optWF_claimWF {x : Option Err} (h : optWF x = true) : claimWF x = true := by
  match x with
  | none => rfl
  | some (.base _) => rfl
  | some (.multi m) =>
      simp only [optWF, sysWF, Bool.and_eq_true, decide_eq_true_eq] at h
      simp only [claimWF, Bool.and_eq_true, List.all_eq_true]
      constructor
      · cases m with
        | nil => simp at h
        | cons a rest => simp
      · intro x hx
        have := h.2
        simp only [List.all_eq_true] at this
        have hb := this x hx
        match x, hb with
        | .base _, _ => rfl

theorem flattenSpecIn_all_base {l : List (Option Err)}
    (h : ∀ x ∈ l, optWF x = true) :
    ∀ y ∈ flattenSpecIn l, isBase y = true := by
  induction l with
  | nil => simp [flattenSpecIn]
  | cons head rest ih =>
      have hrest := fun x hx => h x (List.mem_cons_of_mem _ hx)
      match head with
      | none => simpa [flattenSpecIn] using ih hrest
      | some e =>
          have he : sysWF e = true := h (some e) (by simp)
          intro y hy
          rw [show flattenSpecIn (some e :: rest) = flattenE e ++ flattenSpecIn rest
            from rfl, flattenE_of_sysWF he] at hy
          rcases List.mem_append.mp hy with h1 | h2
          · match e, he, h1 with
            | .base s, _, h1 => simp only [exp1, List.mem_singleton] at h1; simp [h1, isBase]
            | .multi m, he, h1 =>
                simp only [sysWF, Bool.and_eq_true, List.all_eq_true,
                  decide_eq_true_eq] at he
                exact he.2 y (by simpa [exp1] using h1)
          · exact ih hrest y h2

theorem fromSlice_claimWF {errors : List (Option Err)}
    (h : ∀ x ∈ errors, optWF x = true) :
    claimWF (fromSlice errors) = true := by
  rw [fromSlice_eq_combineSpec h]
  have hbase := flattenSpecIn_all_base h
  unfold combineSpec
  match hf : flattenSpecIn errors with
  | [] => rfl
  | [e] =>
      have he := hbase e (by rw [hf]; simp)
      match e, he with
      | .base _, _ => rfl
  | a :: b :: rest =>
      simp only [claimWF, Bool.and_eq_true, List.all_eq_true]
      refine ⟨by simp, fun x hx => ?_⟩
      have := hbase x (by rw [hf]; exact hx)
      match x, this with
      | .base _, _ => rfl

/-- C7: every Composite produced by `combine` or `append` from inputs whose
Composites are themselves system-produced is non-empty and contains no
Composite among its direct constituents. -/
theorem C7_wf_invariant :
    (∀ errors : List (Option Err), (∀ x ∈ errors, optWF x = true) →
      claimWF (Combine errors) = true) ∧
    (∀ l r : Option Err, optWF l = true → optWF r = true →
      claimWF (Append l r) = true) := by
  refine ⟨fun errors h => fromSlice_claimWF h, fun l r hl hr => ?_⟩
  match l, r with
  | none, r =>
      have : Append none r = r := by cases r <;> rfl
      rw [this]
      exact optWF_claimWF hr
  | some a, none => exact optWF_claimWF hl
  | some a, some (.base t) =>
      match a with
      | .base s => rfl
      | .multi ll =>
          simp only [optWF, sysWF, Bool.and_eq_true, List.all_eq_true,
            decide_eq_true_eq] at hl
          rw [show Append (some (.multi ll)) (some (.base t)) =
            some (.multi (ll ++ [.base t])) from rfl]
          simp only [claimWF, Bool.and_eq_true, List.all_eq_true]
          refine ⟨by simp, fun x hx => ?_⟩
          rcases List.mem_append.mp hx with h1 | h2
          · have hb := hl.2 x h1
            match x, hb with
            | .base _, _ => rfl
          · simp only [List.mem_singleton] at h2
            simp [h2, isMulti]
  | some a, some (.multi m) =>
      rw [show Append (some a) (some (.multi m)) =
        fromSlice [some a, some (.multi m)] from rfl]
      apply fromSlice_claimWF
      intro x hx
      rcases List.mem_cons.mp hx with h1 | h2
      · rw [h1]; exact hl
      · simp only [List.mem_singleton] at h2
        rw [h2]; exact hr

/-- Witness for C7 at concrete inputs. -/
theorem C7_wf_invariant_witness :
    claimWF (Combine [some (Err.base "a"), some (Err.multi [.base "b", .base "c"])]) = true ∧
    claimWF (Append (some (Err.multi [.base "b", .base "c"])) (some (Err.base "d"))) = true :=
  ⟨C7_wf_invariant.1 [some (Err.base "a"), some (Err.multi [.base "b", .base "c"])]
      (by decide),
    C7_wf_invariant.2 (some (Err.multi [.base "b", .base "c"])) (some (Err.base "d"))
      (by decide) (by decide)⟩

/-! Helper lemmas: `fromSlice` on all-non-nil pairs and triples. -/

theorem fromSlice_pair (a b : Err) :
    fromSlice [some a, some b] = some (.multi (exp1 a ++ exp1 b)) := by
  rw [show fromSlice [some a, some b] =
      (if (inspect [some a, some b]).count = 0 then none
       else if (inspect [some a, some b]).count = 1 then
         [some a, some b].getD (inspect [some a, some b]).firstErrorIdx none
       else if (inspect [some a, some b]).count = [some a, some b].length &&
           !(inspect [some a, some b]).containsMultiError then
         some (.multi ([some a, some b].filterMap id))
       else
         some (.multi (collect ([some a, some b].drop
           (inspect [some a, some b]).firstErrorIdx))))
    from rfl, inspect_eq]
  cases a <;> cases b <;> simp [cntNN, capNN, hasM, fstIdx, collect, exp1]

theorem fromSlice_triple (a b c : Err) :
    fromSlice [some a, some b, some c] =
      some (.multi (exp1 a ++ exp1 b ++ exp1 c)) := by
  rw [show fromSlice [some a, some b, some c] =
      (if (inspect [some a, some b, some c]).count = 0 then none
       else if (inspect [some a, some b, some c]).count = 1 then
         [some a, some b, some c].getD (inspect [some a, some b, some c]).firstErrorIdx none
       else if (inspect [some a, some b, some c]).count = [some a, some b, some c].length &&
           !(inspect [some a, some b, some c]).containsMultiError then
         some (.multi ([some a, some b, some c].filterMap id))
       else
         some (.multi (collect ([some a, some b, some c].drop
           (inspect [some a, some b, some c]).firstErrorIdx))))
    from rfl, inspect_eq]
  cases a <;> cases b <;> cases c <;> simp [cntNN, capNN, hasM, fstIdx, collect, exp1]

/-- C3: `Append` returns the other operand untouched when either side is
nil and otherwise agrees with `combine([left, right])`. -/
theorem C3_append_is_pair_combine (l r : Option Err) (a b : Err) :
    Append none r = r ∧ Append l none = l ∧
    Append (some a) (some b) = Combine [some a, some b] := by
  refine ⟨by cases r <;> rfl, by cases l <;> rfl, ?_⟩
  rw [show Combine [some a, some b] = fromSlice [some a, some b] from rfl,
    fromSlice_pair]
  match a, b with
  | .base s, .base t => rfl
  | .multi ll, .base t => rfl
  | .base s, .multi mm => rw [show Append (some (.base s)) (some (.multi mm)) =
      fromSlice [some (.base s), some (.multi mm)] from rfl, fromSlice_pair]
  | .multi ll, .multi mm => rw [show Append (some (.multi ll)) (some (.multi mm)) =
      fromSlice [some (.multi ll), some (.multi mm)] from rfl, fromSlice_pair]

/-- C8: flattening is idempotent through `combine`:
`combine(combine(e1, e2), e3)` equals `combine(e1, e2, e3)` for non-nil
errors. -/
theorem C8_combine_idempotent (e1 e2 e3 : Err) :
    Combine [Combine [some e1, some e2], some e3] =
      Combine [some e1, some e2, some e3] := by
  calc Combine [Combine [some e1, some e2], some e3]
      = fromSlice [fromSlice [some e1, some e2], some e3] := rfl
    _ = fromSlice [some (.multi (exp1 e1 ++ exp1 e2)), some e3] := by
        rw [fromSlice_pair]
    _ = some (.multi (exp1 (Err.multi (exp1 e1 ++ exp1 e2)) ++ exp1 e3)) :=
        fromSlice_pair _ _
    _ = some (.multi (exp1 e1 ++ exp1 e2 ++ exp1 e3)) := by
        rw [show exp1 (Err.multi (exp1 e1 ++ exp1 e2)) = exp1 e1 ++ exp1 e2 from rfl]
    _ = fromSlice [some e1, some e2, some e3] := (fromSlice_triple e1 e2 e3).symm
    _ = Combine [some e1, some e2, some e3] := rfl

/-! Helper lemmas for C2: the errorGroup-based `flatten` implements the
spec's recursive Normalizer. -/

theorem V1.specFlattenL_filterNil (l : List (Option V1.GErr)) :
    V1.specFlattenL (V1.filterNil l) = V1.specFlattenL l := by
  induction l with
  | nil => rfl
  | cons head rest ih =>
      match head with
      | none => simpa [V1.filterNil, V1.specFlattenL] using ih
      | some (.plain s) => simp [V1.filterNil, V1.specFlattenL, ih]
      | some (.group causes) => simp [V1.filterNil, V1.specFlattenL, ih]

theorem V1.filterNil_no_none (l : List (Option V1.GErr)) :
    ∀ x ∈ V1.filterNil l, x ≠ none := by
  induction l with
  | nil => simp [V1.filterNil]
  | cons head rest ih =>
      match head with
      | none => simpa [V1.filterNil] using ih
      | some e =>
          intro x hx
          rcases List.mem_cons.mp hx with h1 | h2
          · simp [h1]
          · exact ih x h2

theorem V1.specFlattenL_append (l1 l2 : List (Option V1.GErr)) :
    V1.specFlattenL (l1 ++ l2) = V1.specFlattenL l1 ++ V1.specFlattenL l2 := by
  induction l1 with
  | nil => simp [V1.specFlattenL]
  | cons head rest ih =>
      match head with
      | none => simpa [V1.specFlattenL] using ih
      | some (.plain s) => simp [V1.specFlattenL, ih]
      | some (.group causes) => simp [V1.specFlattenL, ih]

theorem V1.map_some_specFlattenL {l : List (Option V1.GErr)}
    (hn : ∀ x ∈ l, x ≠ none) (hg : ∀ x ∈ l, V1.isGroup x = false) :
    (V1.specFlattenL l).map some = l := by
  induction l with
  | nil => simp [V1.specFlattenL]
  | cons head rest ih =>
      have hrest := ih (fun x hx => hn x (List.mem_cons_of_mem _ hx))
        (fun x hx => hg x (List.mem_cons_of_mem _ hx))
      match head with
      | none => exact absurd rfl (hn none (by simp))
      | some (.plain s) => simp [V1.specFlattenL, hrest]
      | some (.group causes) => simpa [V1.isGroup] using hg (some (.group causes)) (by simp)

theorem V1.flattenTo_spec (dest src : List (Option V1.GErr)) :
    V1.flattenTo dest src = dest ++ (V1.specFlattenL src).map some := by
  induction dest, src using V1.flattenTo.induct with
  | case1 d => simp [V1.flattenTo, V1.specFlattenL]
  | case2 d rest ih => simpa [V1.flattenTo, V1.specFlattenL] using ih
  | case3 d causes rest ih1 ih2 =>
      simp only [V1.flattenTo, V1.specFlattenL]
      rw [ih2, ih1]
      simp
  | case4 d s rest ih =>
      simp only [V1.flattenTo, V1.specFlattenL]
      rw [ih]
      simp

theorem V1.ffgAux_decomp (l : List (Option V1.GErr)) :
    ∀ i : Nat,
      (V1.findFirstErrorGroupAux l i < 0 ∧ ∀ x ∈ l, V1.isGroup x = false) ∨
      (∃ pre g post, l = pre ++ g :: post ∧ (∀ x ∈ pre, V1.isGroup x = false) ∧
        V1.isGroup g = true ∧
        V1.findFirstErrorGroupAux l i = (i : Int) + pre.length) := by
  induction l with
  | nil => intro i; left; exact ⟨by simp [V1.findFirstErrorGroupAux], by simp⟩
  | cons c rest ih =>
      intro i
      by_cases hc : V1.isGroup c = true
      · right
        exact ⟨[], c, rest, rfl, by simp, hc,
          by simp [V1.findFirstErrorGroupAux, hc]⟩
      · have hstep : V1.findFirstErrorGroupAux (c :: rest) i =
          V1.findFirstErrorGroupAux rest (i + 1) := by
          simp [V1.findFirstErrorGroupAux, hc]
        rcases ih (i + 1) with ⟨hneg, hall⟩ | ⟨pre, g, post, hl, hpre, hg, hval⟩
        · left
          refine ⟨by rw [hstep]; exact hneg, fun x hx => ?_⟩
          rcases List.mem_cons.mp hx with h1 | h2
          · rw [h1]; simpa using hc
          · exact hall x h2
        · right
          refine ⟨c :: pre, g, post, by simp [hl], fun x hx => ?_, hg, ?_⟩
          · rcases List.mem_cons.mp hx with h1 | h2
            · rw [h1]; simpa using hc
            · exact hpre x h2
          · rw [hstep, hval]
            simp only [List.length_cons]
            push_cast
            omega

/-- C2: the errorGroup-based `flatten` produces exactly the spec's
Normalizer result — every non-nil input error in original order, with every
composite-capable element (the package's own `multiError` or a third-party
errorGroup) replaced in place by its own constituents, recursively unrolled
until no composite remains at any depth. -/
theorem C2_flatten_recursively_unrolls (errors : List (Option V1.GErr)) :
    V1.flatten errors = (V1.specFlattenL errors).map some := by
  rw [show V1.flatten errors =
      (if (V1.filterNil errors).length = 0 then []
       else
         let idx := V1.findFirstErrorGroup (V1.filterNil errors)
         if idx < 0 then V1.filterNil errors
         else V1.flattenTo ((V1.filterNil errors).take idx.toNat)
           ((V1.filterNil errors).drop idx.toNat))
    from rfl, ← V1.specFlattenL_filterNil errors]
  set f := V1.filterNil errors with hf
  have hno : ∀ x ∈ f, x ≠ none := hf ▸ V1.filterNil_no_none errors
  by_cases h0 : f.length = 0
  · rw [if_pos h0, List.length_eq_zero.mp h0]
    simp [V1.specFlattenL]
  · rw [if_neg h0]
    rcases V1.ffgAux_decomp f 0 with ⟨hneg, hall⟩ | ⟨pre, g, post, hl, hpre, hg, hval⟩
    · rw [show V1.findFirstErrorGroup f = V1.findFirstErrorGroupAux f 0 from rfl]
      simp only [hneg, if_pos]
      exact (V1.map_some_specFlattenL hno hall).symm
    · rw [show V1.findFirstErrorGroup f = V1.findFirstErrorGroupAux f 0 from rfl]
      have hnneg : ¬ V1.findFirstErrorGroupAux f 0 < 0 := by
        rw [hval]; omega
      have htn : (V1.findFirstErrorGroupAux f 0).toNat = pre.length := by
        rw [hval]; omega
      rw [if_neg hnneg, htn, hl, List.take_left, List.drop_left,
        V1.flattenTo_spec, V1.specFlattenL_append]
      have hpren : ∀ x ∈ pre, x ≠ none := by
        intro x hx
        exact hno x (by rw [hl]; exact List.mem_append_left _ hx)
      rw [List.map_append, V1.map_some_specFlattenL hpren hpre]

/-! Helper lemmas for C5: the `writeSingleline` loop joins the messages
with "; ". -/

theorem sglAux_false (l : List Err) (hl : l ≠ []) :
    ∀ acc : List Char,
      sglAux l false acc = acc ++ sepSL ++ specJoin (l.map errorMsg) := by
  induction l with
  | nil => exact absurd rfl hl
  | cons e rest ih =>
      intro acc
      match rest with
      | [] => simp [sglAux, specJoin]
      | e2 :: rest2 =>
          rw [show sglAux (e :: e2 :: rest2) false acc =
            sglAux (e2 :: rest2) false (acc ++ sepSL ++ errorMsg e) from rfl,
            ih (by simp) (acc ++ sepSL ++ errorMsg e),
            show (e :: e2 :: rest2).map errorMsg =
              errorMsg e :: (e2 :: rest2).map errorMsg from rfl,
            show specJoin (errorMsg e :: (e2 :: rest2).map errorMsg) =
              errorMsg e ++ sepSL ++ specJoin ((e2 :: rest2).map errorMsg) from rfl]
          simp

theorem sglAux_true (l : List Err) (acc : List Char) :
    sglAux l true acc = acc ++ specJoin (l.map errorMsg) := by
  match l with
  | [] => simp [sglAux, specJoin]
  | [e] => simp [sglAux, specJoin]
  | e :: e2 :: rest2 =>
      rw [show sglAux (e :: e2 :: rest2) true acc =
        sglAux (e2 :: rest2) false (acc ++ [] ++ errorMsg e) from rfl,
        sglAux_false (e2 :: rest2) (by simp),
        show (e :: e2 :: rest2).map errorMsg =
          errorMsg e :: (e2 :: rest2).map errorMsg from rfl,
        show specJoin (errorMsg e :: (e2 :: rest2).map errorMsg) =
          errorMsg e ++ sepSL ++ specJoin ((e2 :: rest2).map errorMsg) from rfl]
      simp

/-- C5: the compact rendering of a Composite with at least two constituents
is the constituents' own messages joined in order by "; ", with no leading
or trailing separator; and the compact rendering of
`combine("foo-error", "bar-error")` is exactly "foo-error; bar-error". -/
theorem C5_singleline_rendering (l : List Err) (h : 2 ≤ l.length) :
    errorMsg (.multi l) = specJoin (l.map errorMsg) ∧
    Combine [some (.base "foo-error"), some (.base "bar-error")] =
      some (.multi [.base "foo-error", .base "bar-error"]) ∧
    errorMsg (.multi [.base "foo-error", .base "bar-error"]) =
      "foo-error; bar-error".toList := by
  refine ⟨?_, rfl, rfl⟩
  rw [show errorMsg (.multi l) = sglAux l true [] from rfl, sglAux_true]
  simp

/-- Witness for C5 at a concrete Composite. -/
theorem C5_singleline_rendering_witness :
    errorMsg (.multi [Err.base "x", Err.base "y"]) =
      specJoin ([Err.base "x", Err.base "y"].map errorMsg) :=
  (C5_singleline_rendering [Err.base "x", Err.base "y"] (by decide)).1

/-! Helper lemmas for C6: characterizing `writePrefixLine` by splitting on
newlines. -/

theorem wpl_newline (pfx rest : List Char) (first : Bool) :
    writePrefixLine pfx ('\n' :: rest) first =
      (if first then [] else pfx) ++ '\n' :: writePrefixLine pfx rest false := by
  rw [writePrefixLine]
  simp [lineBreak]

theorem wpl_char (pfx : List Char) (c : Char) (rest : List Char) (first : Bool)
    (hc : ¬ c = '\n') :
    writePrefixLine pfx (c :: rest) first =
      (if first then [] else pfx) ++ c :: writePrefixLine pfx rest true := by
  match rest with
  | [] => simp [writePrefixLine, lineBreak, hc]
  | d :: rest2 =>
      rw [writePrefixLine]
      rw [show writePrefixLine pfx (d :: rest2) true =
        (lineBreak (d :: rest2)).1 ++
          writePrefixLine pfx (lineBreak (d :: rest2)).2 false from by
        rw [writePrefixLine]; simp]
      simp only [lineBreak, if_neg hc]
      simp

theorem splitNl_ne_nil (s : List Char) : splitNl s ≠ [] := by
  match s with
  | [] => simp [splitNl]
  | c :: rest =>
      by_cases hc : c = '\n'
      · simp [splitNl, hc]
      · simp only [splitNl, if_neg hc]
        match h : splitNl rest with
        | [] => simp
        | l :: ls => simp

theorem prefixTailAmd_ne_nil (pfx : List Char) (l : List (List Char)) (h : l ≠ []) :
    prefixTailAmd pfx l ≠ [] := by
  match l with
  | [s] => simp [prefixTailAmd]
  | s :: x :: xs => simp [prefixTailAmd]

theorem joinNl_cons_of_ne (f : List Char) (X : List (List Char)) (h : X ≠ []) :
    joinNl (f :: X) = f ++ '\n' :: joinNl X := by
  match X with
  | x :: xs => rfl

theorem joinNl_cons_head (c : Char) (f : List Char) (X : List (List Char)) :
    joinNl ((c :: f) :: X) = c :: joinNl (f :: X) := by
  match X with
  | [] => rfl
  | x :: xs => rfl

theorem wpl_spec (pfx : List Char) (s : List Char) :
    writePrefixLine pfx s true = indentTailAmd pfx s ∧
    writePrefixLine pfx s false = joinNl (prefixTailAmd pfx (splitNl s)) := by
  induction s with
  | nil =>
      constructor
      · rw [writePrefixLine]
        simp [indentTailAmd, splitNl, prefixTailAmd, joinNl]
      · rw [writePrefixLine]
        simp [splitNl, prefixTailAmd, joinNl]
  | cons c rest ih =>
      by_cases hc : c = '\n'
      · subst hc
        obtain ⟨f0, r0, hsplit⟩ : ∃ f0 r0, splitNl rest = f0 :: r0 := by
          match h : splitNl rest with
          | [] => exact absurd h (splitNl_ne_nil rest)
          | f0 :: r0 => exact ⟨f0, r0, rfl⟩
        have hne : prefixTailAmd pfx (splitNl rest) ≠ [] :=
          prefixTailAmd_ne_nil pfx _ (by rw [hsplit]; simp)
        constructor
        · rw [wpl_newline, ih.2, if_pos rfl,
            show indentTailAmd pfx ('\n' :: rest) =
              joinNl ([] :: prefixTailAmd pfx (splitNl rest)) from rfl,
            joinNl_cons_of_ne _ _ hne]
        · rw [wpl_newline, ih.2, if_neg (by simp),
            show splitNl ('\n' :: rest) = [] :: splitNl rest from rfl, hsplit,
            show prefixTailAmd pfx ([] :: f0 :: r0) =
              (pfx ++ []) :: prefixTailAmd pfx (f0 :: r0) from rfl,
            joinNl_cons_of_ne _ _ (prefixTailAmd_ne_nil pfx _ (by simp))]
          simp
      · obtain ⟨f0, r0, hsplit⟩ : ∃ f0 r0, splitNl rest = f0 :: r0 := by
          match h : splitNl rest with
          | [] => exact absurd h (splitNl_ne_nil rest)
          | f0 :: r0 => exact ⟨f0, r0, rfl⟩
        have hsplit2 : splitNl (c :: rest) = (c :: f0) :: r0 := by
          simp only [splitNl, if_neg hc, hsplit]
        have htrue : indentTailAmd pfx rest = joinNl (f0 :: prefixTailAmd pfx r0) := by
          rw [indentTailAmd, hsplit]
        constructor
        · rw [wpl_char pfx c rest true hc, ih.1, if_pos rfl, htrue]
          rw [show indentTailAmd pfx (c :: rest) =
            joinNl ((c :: f0) :: prefixTailAmd pfx r0) from by
              rw [indentTailAmd, hsplit2]]
          rw [joinNl_cons_head]
          simp
        · rw [wpl_char pfx c rest false hc, ih.1, if_neg (by simp), htrue]
          rw [hsplit2]
          match r0 with
          | [] =>
              rw [show prefixTailAmd pfx [c :: f0] =
                [pfx ++ c :: f0] from by simp [prefixTailAmd]]
              simp [joinNl, prefixTailAmd]
          | x :: xs =>
              rw [show prefixTailAmd pfx ((c :: f0) :: x :: xs) =
                (pfx ++ c :: f0) :: prefixTailAmd pfx (x :: xs) from rfl]
              rw [joinNl_cons_of_ne _ _ (prefixTailAmd_ne_nil pfx _ (by simp)),
                joinNl_cons_of_ne _ _ (prefixTailAmd_ne_nil pfx _ (by simp))]
              simp

/-- The multi-line renderer agrees with the amended detailed form. -/
theorem writeMultiline_amd (l : List Err) : writeMultiline l = specDetailedAmd l := by
  rw [show writeMultiline l = headerML ++ wmAux l from rfl,
    show specDetailedAmd l = headerML ++
      catList (l.map (fun e => sepML ++ indentTailAmd indentML (errorMsg e))) from rfl]
  induction l with
  | nil => rfl
  | cons e rest ih =>
      rw [show wmAux (e :: rest) =
        sepML ++ writePrefixLine indentML (errorMsg e) true ++ wmAux rest from rfl,
        (wpl_spec indentML (errorMsg e)).1,
        show (e :: rest).map (fun e => sepML ++ indentTailAmd indentML (errorMsg e)) =
          (sepML ++ indentTailAmd indentML (errorMsg e)) ::
            rest.map (fun e => sepML ++ indentTailAmd indentML (errorMsg e)) from rfl,
        show ∀ x xs, catList (x :: xs) = x ++ catList xs from fun _ _ => rfl]
      have ih2 : wmAux rest =
        catList (rest.map (fun e => sepML ++ indentTailAmd indentML (errorMsg e))) := by
        have := ih
        simpa using this
      rw [ih2]

/-- C6 counterexample: for the Composite with constituents "hello" and
"world\n", the detailed rendering is not the literal-split form claimed
(the empty segment after the trailing newline is not indented). -/
theorem C6_detailed_literal_counterexample :
    writeMultiline [Err.base "hello", Err.base "world\n"] ≠
      specDetailedLit [Err.base "hello", Err.base "world\n"] := by
  rw [writeMultiline_amd]
  decide

/-- C6 amended: the detailed rendering is the header line followed, for
each constituent, by a newline, the marker " -  ", and the message split on
"\n" with every line after the first prefixed by four spaces — except that
when the message ends in a newline, the empty segment after that final
newline is emitted without the indent. -/
theorem C6_detailed_amended (l : List Err) :
    writeMultiline l = specDetailedAmd l :=
  writeMultiline_amd l

/-- C10: `is_every(e, target)` is true iff `e` is a Composite all of whose
direct constituents are equivalent to `target`, or `e` is a non-composite
error itself equivalent to `target`; in particular
`is_every(combine(x, x, x), x)` is true and `is_every(combine(x, y), x)` is
false for distinct plain errors `x` and `y`. -/
theorem C10_is_every (x y : String) (hxy : x ≠ y) :
    (∀ e t : Err, isEvery e t = true ↔
      ((∃ l, e = .multi l ∧ ∀ c ∈ l, errIs c t = true) ∨
        (isMulti e = false ∧ errIs e t = true))) ∧
    (∃ e, Combine [some (.base x), some (.base x), some (.base x)] = some e ∧
      isEvery e (.base x) = true) ∧
    (∃ e, Combine [some (.base x), some (.base y)] = some e ∧
      isEvery e (.base x) = false) := by
  refine ⟨fun e t => ?_, ?_, ?_⟩
  · match e with
    | .multi l =>
        simp only [isEvery, List.all_eq_true, isMulti]
        constructor
        · intro h
          exact Or.inl ⟨l, rfl, h⟩
        · intro h
          rcases h with ⟨l2, hl2, hall⟩ | ⟨hf, _⟩
          · cases hl2
            exact hall
          · exact absurd hf (by simp)
    | .base s =>
        simp only [isEvery, isMulti]
        constructor
        · intro h
          exact Or.inr ⟨by simp, h⟩
        · intro h
          rcases h with ⟨l2, hl2, _⟩ | ⟨_, ht⟩
          · exact absurd hl2 (by simp)
          · exact ht
  · refine ⟨.multi [.base x, .base x, .base x], ?_, ?_⟩
    · rw [show Combine [some (.base x), some (.base x), some (.base x)] =
        fromSlice [some (.base x), some (.base x), some (.base x)] from rfl,
        fromSlice_triple]
      rfl
    · simp [isEvery, errIs]
  · refine ⟨.multi [.base x, .base y], ?_, ?_⟩
    · rw [show Combine [some (.base x), some (.base y)] =
        fromSlice [some (.base x), some (.base y)] from rfl, fromSlice_pair]
      rfl
    · have hyx : (y == x) = false := by
        simp only [beq_eq_false_iff_ne, ne_eq]
        exact Ne.symm hxy
      simp [isEvery, errIs, hyx]

/-- Witness for C10 at concrete distinct errors. -/
theorem C10_is_every_witness :
    isEvery (.multi [Err.base "a", Err.base "a"]) (.base "a") = true ∧
    isEvery (.base "a") (.base "b") = false :=
  ⟨((C10_is_every "a" "b" (by decide)).1 (.multi [Err.base "a", Err.base "a"])
      (.base "a")).mpr (Or.inl ⟨[Err.base "a", Err.base "a"], rfl, by decide⟩),
    by
      have h := (C10_is_every "a" "b" (by decide)).1 (.base "a") (.base "b")
      by_contra hb
      have ht : isEvery (.base "a") (.base "b") = true := by
        revert hb
        cases hdec : isEvery (Err.base "a") (Err.base "b") <;> simp
      rcases h.mp ht with ⟨l2, hl2, _⟩ | ⟨_, hIs⟩
      · exact absurd hl2 (by simp)
      · simp [errIs] at hIs⟩
